import Mathlib

/-!
Shallow embedding of draw_estimator.py (Ammaar-Alam/draw-calculator) and
verification of the specification claims about it.

The embedding follows the source function by function:
load_draw_data, calculate_room_stats, get_top_spelman_drawers,
find_user_position, calculate_probability, and the filtering loop plus the
surrounding logic of the main program (runEstimator).  Machine integers are
modelled as Int, Python floats in calculate_probability are modelled with
exact rational arithmetic and round-half-to-even, and fallible code returns
Option.
-/

namespace DrawEstimator

/-! ## Python string primitives

The Python methods str.strip, str.lower, str.upper, str.split and int
parsing are modelled by structurally recursive functions on the character
list of a string, so that every definition evaluates by kernel reduction. -/

/-- Python str.strip: remove leading and trailing whitespace. -/
def strStrip (s : String) : String :=
  ⟨((s.data.dropWhile Char.isWhitespace).reverse.dropWhile
      Char.isWhitespace).reverse⟩

/-- Python str.lower (ASCII). -/
def strLower (s : String) : String :=
  ⟨s.data.map Char.toLower⟩

/-- Python str.upper (ASCII). -/
def strUpper (s : String) : String :=
  ⟨s.data.map Char.toUpper⟩

/-- Split a character list at the characters satisfying p, keeping empty
fields. -/
def splitBy (p : Char → Bool) : List Char → List Char → List (List Char)
  | acc, [] => [acc.reverse]
  | acc, c :: cs => if p c then acc.reverse :: splitBy p [] cs
    else splitBy p (c :: acc) cs

/-- Python str.split with no argument: split on whitespace runs, discarding
empty fields. -/
def strSplitWs (s : String) : List String :=
  ((splitBy Char.isWhitespace [] s.data).filter (fun l => !l.isEmpty)).map
    (fun l => ⟨l⟩)

/-- Python str.split with a one-character separator: empty fields are kept. -/
def strSplitSep (c : Char) (s : String) : List String :=
  (splitBy (fun d => d == c) [] s.data).map (fun l => ⟨l⟩)

/-- Parse of a non-empty all-digit string, as accepted by the strptime field
regexes. -/
def strDigits? (s : String) : Option Nat :=
  if s.data.isEmpty then none
  else if s.data.all (fun c => c.isDigit) then
    some (s.data.foldl (fun n c => n * 10 + (c.toNat - 48)) 0)
  else none

/-- A draw record after loading: stripped PUID, stripped first and last name,
the parsed draw time (encoded as a natural number preserving chronological
order) and the zero-based row index in the source file (Original Row). -/
structure Person where
  puid : String
  firstName : String
  lastName : String
  time : Nat
  origin : Nat
deriving DecidableEq

/-- A raw CSV row as produced by csv.DictReader after the header check: every
required column is a key; a missing cell in a short row is the value None,
modelled as Option.none.  Field order: PUID, Draw Time, Last Name,
First Name. -/
structure RawRow where
  puid : Option String
  drawTime : Option String
  lastName : Option String
  firstName : Option String
deriving DecidableEq

/-- Day count of a month, with the Gregorian leap rule, as validated by the
datetime constructor that strptime calls. -/
def daysInMonth (year m : Nat) : Nat :=
  if m = 2 then
    (if year % 4 = 0 ∧ (year % 100 ≠ 0 ∨ year % 400 = 0) then 29 else 28)
  else if m = 4 ∨ m = 6 ∨ m = 9 ∨ m = 11 then 30 else 31

/-- Models datetime.strptime with format %m/%d/%y %I:%M %p: month and day are
one or two digits, year exactly two digits (00-68 means 2000s, 69-99 means
1900s), hour 1-12 in one or two digits, minute at most 59 in one or two
digits, meridiem AM or PM case-insensitively; the day is validated against
the month and leap year.  The resulting datetime is encoded as a mixed-radix
natural number, which preserves the chronological order used by the sort. -/
def parseDrawTime (s : String) : Option Nat :=
  match strSplitWs s with
  | [datePart, timePart, meridiem] =>
    match strSplitSep '/' datePart with
    | [ms, ds, ys] =>
      match strSplitSep ':' timePart with
      | [hs, mins] =>
        match strDigits? ms, strDigits? ds, strDigits? ys, strDigits? hs,
            strDigits? mins with
        | some m, some d, some y, some h, some mi =>
          if ms.length = 0 ∨ 2 < ms.length then none
          else if ds.length = 0 ∨ 2 < ds.length then none
          else if ys.length ≠ 2 then none
          else if hs.length = 0 ∨ 2 < hs.length then none
          else if mins.length = 0 ∨ 2 < mins.length then none
          else if m < 1 ∨ 12 < m then none
          else if h < 1 ∨ 12 < h then none
          else if 59 < mi then none
          else
            let year := if y ≤ 68 then 2000 + y else 1900 + y
            if d < 1 ∨ daysInMonth year m < d then none
            else
              let isPM := strUpper meridiem = "PM"
              if strUpper meridiem = "AM" ∨ isPM then
                let hour24 := h % 12 + (if isPM then 12 else 0)
                some ((((year * 12 + (m - 1)) * 31 + (d - 1)) * 24 + hour24) * 60 + mi)
              else none
        | _, _, _, _, _ => none
      | _ => none
    | _ => none
  | _ => none

/-- A row whose dictionary contains a None value: the per-row strip
comprehension raises AttributeError on it, which the per-row handler does not
catch (it only catches ValueError and KeyError). -/
def badRow (r : RawRow) : Bool :=
  r.puid.isNone || r.drawTime.isNone || r.lastName.isNone || r.firstName.isNone

/-- One row of the load loop: strip the values, parse the stripped Draw Time
(failure means the row is skipped with a warning) and record the enumerate
index as Original Row. -/
def parsedRec : Nat × RawRow → Option Person := fun (i, r) =>
  (parseDrawTime (strStrip (r.drawTime.getD ""))).map fun t =>
    { puid := strStrip (r.puid.getD "")
      firstName := strStrip (r.firstName.getD "")
      lastName := strStrip (r.lastName.getD "")
      time := t
      origin := i }

/-- The records that survive the row loop of load_draw_data, in file order. -/
def parsedRecords (rows : List RawRow) : List Person :=
  rows.enum.filterMap parsedRec

/-- The sort key order of load_draw_data: Draw Time Obj ascending, then
Original Row ascending. -/
def drawLe (x y : Person) : Prop :=
  x.time < y.time ∨ (x.time = y.time ∧ x.origin ≤ y.origin)

/-- Strict version of the sort key order. -/
def drawLt (x y : Person) : Prop :=
  x.time < y.time ∨ (x.time = y.time ∧ x.origin < y.origin)

instance : DecidableRel drawLe := fun x y => by unfold drawLe; infer_instance

instance : DecidableRel drawLt := fun x y => by unfold drawLt; infer_instance

instance : IsTotal Person drawLe :=
  ⟨fun a b => by unfold drawLe; omega⟩

instance : IsTrans Person drawLe :=
  ⟨fun a b c => by unfold drawLe; omega⟩

/-- data.sort with key (Draw Time Obj, Original Row).  The Python sort is
Timsort; since within one load the keys are pairwise distinct, any correct
sort produces the same list, so insertion sort is an exact model. -/
def sortRanking (l : List Person) : List Person :=
  List.insertionSort drawLe l

/-- load_draw_data, after the file-existence and header checks have passed:
a row with a None cell raises AttributeError in the strip comprehension,
which reaches the outer handler and makes the whole load return None; rows
whose Draw Time does not parse are skipped; the surviving records are sorted
by (Draw Time Obj, Original Row). -/
def load_draw_data (rows : List RawRow) : Option (List Person) :=
  if rows.any badRow then none
  else some (sortRanking (parsedRecords rows))

/-- One row of the available-rooms CSV, with stripped values. -/
structure Room where
  college : String
  dorm : String
  room : String
  roomType : String
deriving DecidableEq

/-- ROOM_TYPE_MAP.get(room_type, 0). -/
def roomSpots (t : String) : Int :=
  if t = "SINGLE" then 1
  else if t = "DOUBLE" then 2
  else if t = "TRIPLE" then 3
  else if t = "QUAD" then 4
  else if t = "QUINT" then 5
  else if t = "6PERSON" then 6
  else 0

/-- calculate_room_stats: the input is None when load_rooms_data failed; a
falsy room list (None or empty) returns (0, 0) at once.  Otherwise sum the
mapped capacity of Upperclass Spelman rooms and count Upperclass SINGLE
rooms. -/
def calculate_room_stats (roomsData : Option (List Room)) : Int × Int :=
  match roomsData with
  | none => (0, 0)
  | some rooms =>
    if rooms.isEmpty then (0, 0)
    else
      rooms.foldl
        (fun acc room =>
          let college := strLower room.college
          let dorm := strLower room.dorm
          let roomType := strUpper room.roomType
          let spots := roomSpots roomType
          if college = "upperclass" then
            ((if dorm = "spelman" then acc.1 + spots else acc.1),
             (if roomType = "SINGLE" then acc.2 + 1 else acc.2))
          else acc)
        (0, 0)

/-- The loop of get_top_spelman_drawers: walk the ranking while the counter
is below the capacity; a person with a truthy (nonempty) PUID is added and
counted, a person without one is skipped with a warning; reaching the
capacity stops the loop. -/
def topLoop (capacity : Int) : List Person → Nat → Finset String
  | [], _ => ∅
  | p :: rest, count =>
    if (count : Int) < capacity then
      if p.puid ≠ "" then insert p.puid (topLoop capacity rest (count + 1))
      else topLoop capacity rest count
    else ∅

/-- get_top_spelman_drawers: a falsy (None or empty) Spelman list or a
non-positive capacity returns the empty set with a warning; otherwise the
top-of-list loop collects PUIDs. -/
def get_top_spelman_drawers (spelmanData : Option (List Person)) (capacity : Int) :
    Finset String :=
  match spelmanData with
  | none => ∅
  | some l =>
    if l.isEmpty then ∅
    else if capacity ≤ 0 then ∅
    else topLoop capacity l 0

/-- Transcription of the claim wording for the Sub-Pool Claimant Set Builder,
used only to compare against the source function: the identity set of the
first K records of the ranking, the empty set for K at most 0. -/
def specTopSpelmanDrawers (l : List Person) (capacity : Int) : Finset String :=
  if capacity ≤ 0 then ∅
  else ((l.take capacity.toNat).filterMap
    (fun p => if p.puid = "" then none else some p.puid)).toFinset

/-- The match test of find_user_position: case-insensitive equality of first
and last name (the stored names were stripped at load). -/
def nameMatches (p : Person) (firstName lastName : String) : Bool :=
  strLower p.firstName == strLower firstName && strLower p.lastName == strLower lastName

/-- find_user_position: the first record matching the names, along with its
index; None models the (None, -1) not-found return. -/
def find_user_position (data : List Person) (firstName lastName : String) :
    Option (Person × Nat) :=
  match data with
  | [] => none
  | p :: rest =>
    if nameMatches p firstName lastName then some (p, 0)
    else (find_user_position rest firstName lastName).map fun q => (q.1, q.2 + 1)

/-- Round half to even of num / den for positive den, the rounding of the
Python builtin round, computed with exact integer arithmetic. -/
def bankersRound (num den : Int) : Int :=
  let q := num / den
  let r := num % den
  if 2 * r < den then q
  else if den < 2 * r then q + 1
  else if q % 2 = 0 then q else q + 1

/-- calculate_probability: the second parameter is treated as the number of
people ahead, and rank_among_competitors adds one to it.  The float
expression (available / rank_among_competitors) * 100 with round is modelled
by exact rational rounding half to even. -/
def calculate_probability (available position : Int) : Int :=
  let rank_among_competitors := position + 1
  if position < 0 then 100
  else if available ≤ 0 then 0
  else if rank_among_competitors ≤ available then 100
  else if available = position then 0
  else max 0 (bankersRound (100 * available) rank_among_competitors)

/-- The mutable state of the filtering loop of the main program:
people_ahead_filtered, removed_spelman_count, removed_res_college_count and
puids_already_removed. -/
structure FilterState where
  filtered : List Person
  removedSpelman : Nat
  removedRes : Nat
  alreadyRemoved : Finset String
deriving DecidableEq

/-- A record survives the filtering loop exactly when its PUID is falsy
(empty) or belongs to neither claimant set. -/
def keepB (S R : Finset String) (p : Person) : Bool :=
  p.puid == "" || (decide (p.puid ∉ S) && decide (p.puid ∉ R))

/-- One iteration of the filtering loop: a falsy PUID is kept with a warning;
a PUID in the Spelman set is removed and tallied once per identity; otherwise
a PUID in the other-residential-college set is removed and tallied once per
identity; all other records are kept. -/
def filterStep (S R : Finset String) (st : FilterState) (p : Person) : FilterState :=
  if p.puid = "" then { st with filtered := st.filtered ++ [p] }
  else if p.puid ∈ S then
    if p.puid ∈ st.alreadyRemoved then st
    else { st with
      removedSpelman := st.removedSpelman + 1
      alreadyRemoved := insert p.puid st.alreadyRemoved }
  else if p.puid ∈ R then
    if p.puid ∈ st.alreadyRemoved then st
    else { st with
      removedRes := st.removedRes + 1
      alreadyRemoved := insert p.puid st.alreadyRemoved }
  else { st with filtered := st.filtered ++ [p] }

/-- The whole filtering loop over the people initially ahead. -/
def runFilter (S R : Finset String) (l : List Person) : FilterState :=
  l.foldl (filterStep S R) ⟨[], 0, 0, ∅⟩

/-- The truthy identities occurring in a list of records. -/
def identsOf (l : List Person) : Finset String :=
  (l.filterMap fun p => if p.puid = "" then none else some p.puid).toFinset

/-- The output record of a run (output_data without the two raw timestamp
strings, which are I/O concerns). -/
structure EstimationResult where
  userName : String
  puid : String
  rawPosition : Nat
  initialAhead : Nat
  removedSpelman : Nat
  removedRes : Nat
  totalRemoved : Nat
  finalCount : Nat
  userRank : Int
  availableSingles : Int
  probabilitySingle : Int
deriving DecidableEq

/-- Steps 4 to 9 of the main program: find the user (the names typed by the
user are stripped), exit with None when absent, take the prefix strictly
before the user, filter it against the two claimant sets, and compute the
final statistics.  The source shortcut for an empty prefix assigns the same
values the filtering loop produces on an empty list, so the loop is used
uniformly. -/
def runEstimator (data : List Person) (rawFirst rawLast : String)
    (S R : Finset String) (availableSingles : Int) : Option EstimationResult :=
  match find_user_position data (strStrip rawFirst) (strStrip rawLast) with
  | none => none
  | some (user, idx) =>
    let aheadInitial := data.take idx
    let initialCount := aheadInitial.length
    let st := runFilter S R aheadInitial
    let finalCount := st.filtered.length
    let totalRemoved := st.removedSpelman + st.removedRes
    let userRank : Int := (finalCount : Int) + 1
    some
      { userName := strStrip (user.firstName ++ " " ++ user.lastName)
        puid := user.puid
        rawPosition := idx + 1
        initialAhead := initialCount
        removedSpelman := st.removedSpelman
        removedRes := st.removedRes
        totalRemoved := totalRemoved
        finalCount := finalCount
        userRank := userRank
        availableSingles := availableSingles
        probabilitySingle := calculate_probability availableSingles userRank }

/-! ## Helper lemmas -/

theorem bankersRound_le_ediv_add_one (num den : Int) :
    bankersRound num den ≤ num / den + 1 := by
  unfold bankersRound
  dsimp only
  split_ifs <;> omega

/-! ## Probability Model claims -/

/-- Claim C1 (code_bug evidence): at available 5 and adjusted rank 10 the code
returns 45, not the 50 the claim states, and at available 1 and adjusted rank
3 it returns 25, not 33: main passes the rank among competitors
(final_count + 1) as the position argument, and calculate_probability adds
one to it again. -/
theorem C1_probability_at_failing_inputs :
    calculate_probability 5 10 = 45 ∧ calculate_probability 1 3 = 25 := by
  decide

/-- Claim C9: for every integer available-spot count and every integer second
argument, including negative values, calculate_probability returns an integer
in the closed interval from 0 to 100. -/
theorem C9_probability_bounded (available position : Int) :
    0 ≤ calculate_probability available position
      ∧ calculate_probability available position ≤ 100 := by
  unfold calculate_probability
  dsimp only
  split_ifs with h1 h2 h3 h4
  · omega
  · omega
  · omega
  · omega
  · refine ⟨le_max_left 0 _, ?_⟩
    have hp : 0 ≤ position := by omega
    have ha : 0 < available := by omega
    have hap : available < position := by omega
    have hq : 100 * available / (position + 1) < 100 := by
      rw [Int.ediv_lt_iff_lt_mul (by omega)]
      omega
    have hb := bankersRound_le_ediv_add_one (100 * available) (position + 1)
    have : bankersRound (100 * available) (position + 1) ≤ 100 := by omega
    omega

/-! ## Capacity Resolver claim -/

/-- Claim C8: for an unavailable (None) or empty room dataset,
calculate_room_stats returns summed Spelman capacity 0 and available-singles
count 0, and with that capacity the Spelman exclusion set is empty for every
Spelman dataset, so capacity-gated exclusion is inactive. -/
theorem C8_empty_rooms_degrade (spelmanData : Option (List Person)) :
    calculate_room_stats none = (0, 0)
    ∧ calculate_room_stats (some []) = (0, 0)
    ∧ get_top_spelman_drawers spelmanData (calculate_room_stats none).1 = ∅ := by
  refine ⟨rfl, rfl, ?_⟩
  cases spelmanData with
  | none => rfl
  | some l =>
    show get_top_spelman_drawers (some l) 0 = ∅
    unfold get_top_spelman_drawers
    split_ifs <;> simp_all

/-! ## Sub-Pool Claimant Set Builder claims -/

theorem topLoop_eq (K : Int) (l : List Person) :
    ∀ c : Nat, topLoop K l c
      = (((l.filter fun p => !(p.puid == "")).take (K - c).toNat).map
          Person.puid).toFinset := by
  induction l with
  | nil => intro c; simp [topLoop]
  | cons p rest ih =>
    intro c
    by_cases hc : (c : Int) < K
    · by_cases hp : p.puid = ""
      · simp [topLoop, hc, hp, ih c, List.filter_cons]
      · have h1 : (K - c).toNat = (K - (c + 1)).toNat + 1 := by omega
        simp [topLoop, hc, hp, ih (c + 1), List.filter_cons, h1]
    · have h0 : (K - c).toNat = 0 := by omega
      simp [topLoop, hc, h0]

/-- Claim C3 (corrected): a non-positive capacity yields the empty set, an
unavailable dataset yields the empty set, and a positive capacity K yields
the identities of the first K records that carry a truthy identity, records
without one being skipped without counting toward K; when K is at least the
number of such records this is the whole ranking worth of identities. -/
theorem C3_top_spelman_drawers (l : List Person) (K : Int) :
    (K ≤ 0 → get_top_spelman_drawers (some l) K = ∅)
    ∧ get_top_spelman_drawers none K = ∅
    ∧ (0 < K → get_top_spelman_drawers (some l) K
        = (((l.filter fun p => !(p.puid == "")).take K.toNat).map
            Person.puid).toFinset) := by
  refine ⟨?_, rfl, ?_⟩
  · intro h
    unfold get_top_spelman_drawers
    split_ifs
    simp_all
  · intro h
    have hred : get_top_spelman_drawers (some l) K
        = if l.isEmpty then ∅ else if K ≤ 0 then ∅ else topLoop K l 0 := rfl
    rw [hred]
    by_cases he : l.isEmpty
    · have hl : l = [] := by simpa [List.isEmpty_iff] using he
      subst hl
      simp
    · rw [if_neg he, if_neg (by omega)]
      simpa using topLoop_eq K l 0

/-- Claim C3 counterexample: with a ranking whose first record has an empty
identity and capacity 1, the code returns the identity of the second record,
while the claimed identity set of the first 1 records is empty. -/
theorem C3_counterexample :
    get_top_spelman_drawers
        (some [⟨"", "a", "b", 0, 0⟩, ⟨"B", "c", "d", 1, 1⟩]) 1 = {"B"}
    ∧ specTopSpelmanDrawers [⟨"", "a", "b", 0, 0⟩, ⟨"B", "c", "d", 1, 1⟩] 1 = ∅
    ∧ ({"B"} : Finset String) ≠ (∅ : Finset String) := by
  decide

/-- Witness for claim C3 at a concrete ranking and capacity. -/
theorem C3_witness :
    get_top_spelman_drawers (some [⟨"B", "c", "d", 1, 1⟩]) 1
      = ((([(⟨"B", "c", "d", 1, 1⟩ : Person)].filter
            fun p => !(p.puid == "")).take (1 : Int).toNat).map
          Person.puid).toFinset :=
  (C3_top_spelman_drawers [⟨"B", "c", "d", 1, 1⟩] 1).2.2 (by norm_num)

/-! ## Filtering loop characterization -/

theorem identsOf_cons_of_empty {p : Person} (l : List Person) (h : p.puid = "") :
    identsOf (p :: l) = identsOf l := by
  simp [identsOf, List.filterMap_cons, h]

theorem identsOf_cons_of_ne {p : Person} (l : List Person) (h : p.puid ≠ "") :
    identsOf (p :: l) = insert p.puid (identsOf l) := by
  simp [identsOf, List.filterMap_cons, h]

theorem keepB_of_empty (S R : Finset String) {p : Person} (h : p.puid = "") :
    keepB S R p = true := by
  simp [keepB, h]

theorem keepB_of_mem_left (S R : Finset String) {p : Person}
    (hne : p.puid ≠ "") (h : p.puid ∈ S) : keepB S R p = false := by
  simp [keepB, hne, h]

theorem keepB_of_mem_right (S R : Finset String) {p : Person}
    (hne : p.puid ≠ "") (h : p.puid ∈ R) : keepB S R p = false := by
  simp [keepB, hne, h]

theorem keepB_of_not_mem (S R : Finset String) {p : Person}
    (hS : p.puid ∉ S) (hR : p.puid ∉ R) : keepB S R p = true := by
  simp [keepB, hS, hR]

theorem keepB_eq_false_iff (S R : Finset String) (p : Person) :
    keepB S R p = false ↔ p.puid ≠ "" ∧ (p.puid ∈ S ∨ p.puid ∈ R) := by
  simp [keepB]
  tauto

/-- The loop invariant of the filtering loop, for an arbitrary starting
state: kept records are appended in order, each tally counts the so far
uncounted identities its claimant set captures, and the already-removed set
accumulates every captured identity. -/
theorem foldl_filterStep (S R : Finset String) (l : List Person) :
    ∀ st : FilterState,
    l.foldl (filterStep S R) st =
      { filtered := st.filtered ++ l.filter (keepB S R)
        removedSpelman :=
          st.removedSpelman + ((identsOf l ∩ S) \ st.alreadyRemoved).card
        removedRes :=
          st.removedRes + ((identsOf l ∩ (R \ S)) \ st.alreadyRemoved).card
        alreadyRemoved := st.alreadyRemoved ∪ (identsOf l ∩ (S ∪ R)) } := by
  induction l with
  | nil =>
    intro st
    simp [identsOf]
  | cons p l ih =>
    intro st
    rw [List.foldl_cons, ih]
    by_cases hp : p.puid = ""
    · rw [identsOf_cons_of_empty l hp]
      have hst : filterStep S R st p = { st with filtered := st.filtered ++ [p] } := by
        simp [filterStep, hp]
      rw [hst]
      simp [List.filter_cons, keepB_of_empty S R hp]
    · by_cases hS : p.puid ∈ S
      · rw [identsOf_cons_of_ne l hp]
        have hRS : p.puid ∉ R \ S := by simp [Finset.mem_sdiff, hS]
        by_cases hA : p.puid ∈ st.alreadyRemoved
        · have hst : filterStep S R st p = st := by
            simp [filterStep, hp, hS, hA]
          rw [hst]
          simp only [FilterState.mk.injEq]
          refine ⟨?_, ?_, ?_, ?_⟩
          · simp [List.filter_cons, keepB_of_mem_left S R hp hS]
          · rw [Finset.insert_inter_of_mem hS, Finset.insert_sdiff_of_mem _ hA]
          · rw [Finset.insert_inter_of_not_mem hRS]
          · rw [Finset.insert_inter_of_mem (Finset.mem_union_left R hS),
              Finset.union_insert,
              Finset.insert_eq_self.mpr
                (Finset.mem_union_left _ hA)]
        · have hst : filterStep S R st p
              = { st with removedSpelman := st.removedSpelman + 1
                          alreadyRemoved := insert p.puid st.alreadyRemoved } := by
            simp [filterStep, hp, hS, hA]
          rw [hst]
          simp only [FilterState.mk.injEq]
          refine ⟨?_, ?_, ?_, ?_⟩
          · simp [List.filter_cons, keepB_of_mem_left S R hp hS]
          · rw [Finset.insert_inter_of_mem hS, Finset.insert_sdiff_of_not_mem _ hA,
              Finset.sdiff_insert]
            by_cases hu : p.puid ∈ (identsOf l ∩ S) \ st.alreadyRemoved
            · rw [Finset.card_insert_of_mem hu, Finset.card_erase_of_mem hu]
              have hpos := Finset.card_pos.mpr ⟨_, hu⟩
              omega
            · rw [Finset.card_insert_of_not_mem hu, Finset.erase_eq_of_not_mem hu]
              omega
          · have hnm : p.puid ∉ (identsOf l ∩ (R \ S)) \ st.alreadyRemoved := by
              intro hx
              exact hRS (Finset.mem_inter.mp (Finset.mem_sdiff.mp hx).1).2
            rw [Finset.insert_inter_of_not_mem hRS, Finset.sdiff_insert,
              Finset.erase_eq_of_not_mem hnm]
          · rw [Finset.insert_inter_of_mem (Finset.mem_union_left R hS),
              Finset.union_insert, Finset.insert_union]
      · by_cases hR : p.puid ∈ R
        · rw [identsOf_cons_of_ne l hp]
          have hRS : p.puid ∈ R \ S := Finset.mem_sdiff.mpr ⟨hR, hS⟩
          by_cases hA : p.puid ∈ st.alreadyRemoved
          · have hst : filterStep S R st p = st := by
              simp [filterStep, hp, hS, hR, hA]
            rw [hst]
            simp only [FilterState.mk.injEq]
            refine ⟨?_, ?_, ?_, ?_⟩
            · simp [List.filter_cons, keepB_of_mem_right S R hp hR]
            · rw [Finset.insert_inter_of_not_mem hS]
            · rw [Finset.insert_inter_of_mem hRS, Finset.insert_sdiff_of_mem _ hA]
            · rw [Finset.insert_inter_of_mem (Finset.mem_union_right S hR),
                Finset.union_insert,
                Finset.insert_eq_self.mpr
                  (Finset.mem_union_left _ hA)]
          · have hst : filterStep S R st p
                = { st with removedRes := st.removedRes + 1
                            alreadyRemoved := insert p.puid st.alreadyRemoved } := by
              simp [filterStep, hp, hS, hR, hA]
            rw [hst]
            simp only [FilterState.mk.injEq]
            refine ⟨?_, ?_, ?_, ?_⟩
            · simp [List.filter_cons, keepB_of_mem_right S R hp hR]
            · have hnm : p.puid ∉ (identsOf l ∩ S) \ st.alreadyRemoved := by
                intro hx
                exact hS (Finset.mem_inter.mp (Finset.mem_sdiff.mp hx).1).2
              rw [Finset.insert_inter_of_not_mem hS, Finset.sdiff_insert,
                Finset.erase_eq_of_not_mem hnm]
            · rw [Finset.insert_inter_of_mem hRS, Finset.insert_sdiff_of_not_mem _ hA,
                Finset.sdiff_insert]
              by_cases hu : p.puid ∈ (identsOf l ∩ (R \ S)) \ st.alreadyRemoved
              · rw [Finset.card_insert_of_mem hu, Finset.card_erase_of_mem hu]
                have hpos := Finset.card_pos.mpr ⟨_, hu⟩
                omega
              · rw [Finset.card_insert_of_not_mem hu, Finset.erase_eq_of_not_mem hu]
                omega
            · rw [Finset.insert_inter_of_mem (Finset.mem_union_right S hR),
                Finset.union_insert, Finset.insert_union]
        · rw [identsOf_cons_of_ne l hp]
          have hRS : p.puid ∉ R \ S := by simp [Finset.mem_sdiff, hR]
          have hSR : p.puid ∉ S ∪ R := by simp [Finset.mem_union, hS, hR]
          have hst : filterStep S R st p = { st with filtered := st.filtered ++ [p] } := by
            simp [filterStep, hp, hS, hR]
          rw [hst]
          simp only [FilterState.mk.injEq]
          refine ⟨?_, ?_, ?_, ?_⟩
          · simp [List.filter_cons, keepB_of_not_mem S R hS hR]
          · rw [Finset.insert_inter_of_not_mem hS]
          · rw [Finset.insert_inter_of_not_mem hRS]
          · rw [Finset.insert_inter_of_not_mem hSR]

/-- Closed form of the filtering loop from the initial state. -/
theorem runFilter_spec (S R : Finset String) (l : List Person) :
    runFilter S R l =
      { filtered := l.filter (keepB S R)
        removedSpelman := (identsOf l ∩ S).card
        removedRes := (identsOf l ∩ (R \ S)).card
        alreadyRemoved := identsOf l ∩ (S ∪ R) } := by
  unfold runFilter
  rw [foldl_filterStep]
  simp

/-! ## Position Estimator target lookup (claim C7) -/

theorem find_user_position_eq_none (data : List Person) (f l : String) :
    find_user_position data f l = none ↔ ∀ p ∈ data, nameMatches p f l = false := by
  induction data with
  | nil => simp [find_user_position]
  | cons p rest ih =>
    by_cases h : nameMatches p f l <;> simp [find_user_position, h, ih]

theorem find_user_position_first (data : List Person) (f l : String) :
    ∀ i p, data.get? i = some p → nameMatches p f l = true →
      (∀ j q, j < i → data.get? j = some q → nameMatches q f l = false) →
      find_user_position data f l = some (p, i) := by
  induction data with
  | nil => intro i p h; simp at h
  | cons a rest ih =>
    intro i p hget hm hbefore
    cases i with
    | zero =>
      have : a = p := by simpa using hget
      subst this
      simp [find_user_position, hm]
    | succ k =>
      have ha : nameMatches a f l = false := hbefore 0 a (Nat.succ_pos k) rfl
      have hrec := ih k p (by simpa using hget) hm
        (fun j q hj hq => hbefore (j + 1) q (by omega) (by simpa using hq))
      simp [find_user_position, ha, hrec]

/-- Claim C7: if the stripped, case-insensitive name pair matches no record of
the primary ranking, the run produces no EstimationResult; if a record
matches and no earlier record does, the run selects exactly that first
matching record as the target. -/
theorem C7_target_lookup (data : List Person) (f l : String)
    (S R : Finset String) (a : Int) :
    ((∀ p ∈ data, nameMatches p (strStrip f) (strStrip l) = false) →
        runEstimator data f l S R a = none)
    ∧ ∀ i p, data.get? i = some p → nameMatches p (strStrip f) (strStrip l) = true →
        (∀ j q, j < i → data.get? j = some q →
          nameMatches q (strStrip f) (strStrip l) = false) →
        ∃ res, runEstimator data f l S R a = some res
          ∧ res.puid = p.puid ∧ res.rawPosition = i + 1 := by
  constructor
  · intro h
    have hn : find_user_position data (strStrip f) (strStrip l) = none :=
      (find_user_position_eq_none data (strStrip f) (strStrip l)).mpr h
    simp [runEstimator, hn]
  · intro i p hget hm hbefore
    have hf := find_user_position_first data (strStrip f) (strStrip l) i p hget hm hbefore
    unfold runEstimator
    rw [hf]
    exact ⟨_, rfl, rfl, rfl⟩

/-- Witness for claim C7 at a concrete ranking and target. -/
theorem C7_witness :
    ∃ res, runEstimator [⟨"A1", "Al", "Smith", 5, 0⟩] "Al" "Smith" ∅ ∅ 2 = some res
      ∧ res.puid = "A1" ∧ res.rawPosition = 1 :=
  (C7_target_lookup [⟨"A1", "Al", "Smith", 5, 0⟩] "Al" "Smith" ∅ ∅ 2).2 0
    ⟨"A1", "Al", "Smith", 5, 0⟩ rfl (by decide)
    (fun j q hj _ => absurd hj (Nat.not_lt_zero j))

/-! ## Filtered list invariants (claim C10) -/

/-- Claim C10: the filtered-ahead list is the order-preserving subsequence of
the ahead-prefix consisting exactly of the records whose identity is missing
or belongs to neither claimant set. -/
theorem C10_filtered_subsequence (S R : Finset String) (l : List Person) :
    (runFilter S R l).filtered = l.filter (keepB S R)
    ∧ (runFilter S R l).filtered.Sublist l
    ∧ ∀ p, p ∈ (runFilter S R l).filtered ↔
        (p ∈ l ∧ (p.puid = "" ∨ (p.puid ∉ S ∧ p.puid ∉ R))) := by
  have hf : (runFilter S R l).filtered = l.filter (keepB S R) := by
    rw [runFilter_spec]
  refine ⟨hf, hf ▸ l.filter_sublist, ?_⟩
  intro p
  rw [hf, List.mem_filter]
  simp [keepB]

/-! ## Conservation law (claim C2) -/

theorem identsOf_inter_union (S R : Finset String) (l : List Person) :
    identsOf l ∩ (S ∪ R)
      = ((l.filter fun p => !keepB S R p).map Person.puid).toFinset := by
  ext x
  simp only [List.mem_toFinset, Finset.mem_inter, Finset.mem_union, identsOf,
    List.mem_filterMap, List.mem_map, List.mem_filter, Bool.not_eq_true']
  constructor
  · rintro ⟨⟨p, hpl, hpx⟩, hx⟩
    by_cases hp : p.puid = ""
    · rw [if_pos hp] at hpx
      exact absurd hpx (by simp)
    · rw [if_neg hp] at hpx
      obtain rfl := Option.some.inj hpx
      exact ⟨p, ⟨hpl, (keepB_eq_false_iff S R p).mpr ⟨hp, hx⟩⟩, rfl⟩
  · rintro ⟨p, ⟨hpl, hk⟩, rfl⟩
    obtain ⟨hp, hx⟩ := (keepB_eq_false_iff S R p).mp hk
    exact ⟨⟨p, hpl, by rw [if_neg hp]⟩, hx⟩

theorem tallies_sum (S R : Finset String) (l : List Person) :
    (identsOf l ∩ S).card + (identsOf l ∩ (R \ S)).card
      = (identsOf l ∩ (S ∪ R)).card := by
  have hdis : Disjoint (identsOf l ∩ S) (identsOf l ∩ (R \ S)) := by
    rw [Finset.disjoint_left]
    intro x hx hx2
    exact (Finset.mem_sdiff.mp (Finset.mem_inter.mp hx2).2).2
      (Finset.mem_inter.mp hx).2
  rw [← Finset.card_union_of_disjoint hdis, ← Finset.inter_union_distrib_left,
    Finset.union_sdiff_self_eq_union]

/-- Claim C2 (corrected): the filtered-ahead count never exceeds the
initial-ahead count, and the reported total removed, which counts distinct
removed identities, is at most the number of removed records, that is
initial-ahead minus filtered-ahead, with equality whenever the identities of
the records ahead are pairwise distinct. -/
theorem C2_conservation (S R : Finset String) (l : List Person) :
    (runFilter S R l).filtered.length ≤ l.length
    ∧ (runFilter S R l).removedSpelman + (runFilter S R l).removedRes
        ≤ l.length - (runFilter S R l).filtered.length
    ∧ ((l.map Person.puid).Nodup →
        (runFilter S R l).removedSpelman + (runFilter S R l).removedRes
          = l.length - (runFilter S R l).filtered.length) := by
  rw [runFilter_spec]
  dsimp only
  have hlen : (l.filter (keepB S R)).length
      + (l.filter fun p => !keepB S R p).length = l.length := by
    rw [← List.countP_eq_length_filter, ← List.countP_eq_length_filter]
    have h := (List.length_eq_countP_add_countP (keepB S R) l).symm
    simpa using h
  have hcard : (identsOf l ∩ (S ∪ R)).card
      ≤ (l.filter fun p => !keepB S R p).length := by
    rw [identsOf_inter_union]
    calc ((l.filter fun p => !keepB S R p).map Person.puid).toFinset.card
        ≤ ((l.filter fun p => !keepB S R p).map Person.puid).length :=
          List.toFinset_card_le _
      _ = (l.filter fun p => !keepB S R p).length := List.length_map _ _
  refine ⟨List.length_filter_le _ _, ?_, ?_⟩
  · rw [tallies_sum]
    omega
  · intro hnd
    have hnd2 : ((l.filter fun p => !keepB S R p).map Person.puid).Nodup :=
      hnd.sublist (l.filter_sublist.map Person.puid)
    have heq : (identsOf l ∩ (S ∪ R)).card
        = (l.filter fun p => !keepB S R p).length := by
      rw [identsOf_inter_union, List.toFinset_card_of_nodup hnd2,
        List.length_map]
    rw [tallies_sum]
    omega

/-- Claim C2 counterexample: a run of the Position Estimator over an
ahead-prefix holding two records with the same identity, which the sub-pool
set captures, reports total removed 1 while initial-ahead minus
filtered-ahead is 2. -/
theorem C2_counterexample :
    (runEstimator
        [⟨"A", "Ann", "One", 1, 0⟩, ⟨"A", "Ann", "Two", 2, 1⟩,
         ⟨"T", "Tom", "Jones", 3, 2⟩] "Tom" "Jones" {"A"} ∅ 5).map
      (fun r => (r.initialAhead, r.finalCount, r.totalRemoved)) = some (2, 0, 1)
    ∧ (1 : Nat) ≠ 2 - 0 := by
  decide

/-- Witness for claim C2 at a concrete prefix with distinct identities. -/
theorem C2_witness :
    (runFilter {"A"} ∅ [⟨"A", "a", "b", 0, 0⟩, ⟨"B", "c", "d", 1, 1⟩]).removedSpelman
        + (runFilter {"A"} ∅
            [⟨"A", "a", "b", 0, 0⟩, ⟨"B", "c", "d", 1, 1⟩]).removedRes
      = ([⟨"A", "a", "b", 0, 0⟩, ⟨"B", "c", "d", 1, 1⟩] : List Person).length
        - (runFilter {"A"} ∅
            [⟨"A", "a", "b", 0, 0⟩, ⟨"B", "c", "d", 1, 1⟩]).filtered.length :=
  (C2_conservation {"A"} ∅ [⟨"A", "a", "b", 0, 0⟩, ⟨"B", "c", "d", 1, 1⟩]).2.2
    (by decide)

/-! ## Dual-membership precedence (claim C4) -/

theorem ne_empty_of_mem_identsOf {x : String} {l : List Person}
    (h : x ∈ identsOf l) : x ≠ "" := by
  simp only [identsOf, List.mem_toFinset, List.mem_filterMap] at h
  obtain ⟨p, hpl, hpx⟩ := h
  by_cases hp : p.puid = ""
  · rw [if_pos hp] at hpx
    exact absurd hpx (by simp)
  · rw [if_neg hp] at hpx
    obtain rfl := Option.some.inj hpx
    exact hp

theorem identsOf_filter_ne (l : List Person) (u : String) :
    identsOf (l.filter fun p => !(p.puid == u)) = (identsOf l).erase u := by
  ext x
  simp only [identsOf, List.mem_toFinset, List.mem_filterMap, List.mem_filter,
    Finset.mem_erase, Bool.not_eq_true', beq_eq_false_iff_ne]
  constructor
  · rintro ⟨p, ⟨hpl, hpu⟩, hpx⟩
    by_cases hp : p.puid = ""
    · rw [if_pos hp] at hpx
      exact absurd hpx (by simp)
    · rw [if_neg hp] at hpx
      obtain rfl := Option.some.inj hpx
      exact ⟨hpu, p, hpl, by rw [if_neg hp]⟩
  · rintro ⟨hxu, p, hpl, hpx⟩
    by_cases hp : p.puid = ""
    · rw [if_pos hp] at hpx
      exact absurd hpx (by simp)
    · rw [if_neg hp] at hpx
      obtain rfl := Option.some.inj hpx
      exact ⟨p, ⟨hpl, hxu⟩, by rw [if_neg hp]⟩

theorem union_erase_of_mem_left {S R : Finset String} {u : String} (hS : u ∈ S) :
    S ∪ R.erase u = S ∪ R := by
  ext x
  by_cases hx : x = u <;>
    simp [hx, hS, Finset.mem_union, Finset.mem_erase]

theorem erase_sdiff_of_mem_left {S R : Finset String} {u : String} (hS : u ∈ S) :
    (R.erase u) \ S = R \ S := by
  ext x
  by_cases hx : x = u <;>
    simp [hx, hS, Finset.mem_sdiff, Finset.mem_erase]

/-- Claim C4: an identity in both claimant sets that occurs in the
ahead-prefix is attributed to the sub-pool category: the whole run result is
unchanged when the identity is erased from the cross-pool set, the records
bearing it contribute exactly one to the sub-pool tally, and nothing to the
cross-pool tally. -/
theorem C4_subpool_precedence (S R : Finset String) (l : List Person)
    (u : String) (hS : u ∈ S) (_hR : u ∈ R) (hocc : u ∈ identsOf l) :
    runFilter S R l = runFilter S (R.erase u) l
    ∧ (runFilter S R l).removedSpelman
        = (runFilter S R (l.filter fun p => !(p.puid == u))).removedSpelman + 1
    ∧ (runFilter S R l).removedRes
        = (runFilter S R (l.filter fun p => !(p.puid == u))).removedRes := by
  have hune : u ≠ "" := ne_empty_of_mem_identsOf hocc
  refine ⟨?_, ?_, ?_⟩
  · have h3 : l.filter (keepB S R) = l.filter (keepB S (R.erase u)) := by
      apply List.filter_congr
      intro p hpl
      by_cases hx : p.puid = u
      · rw [keepB_of_mem_left S R (hx ▸ hune) (hx ▸ hS),
          keepB_of_mem_left S (R.erase u) (hx ▸ hune) (hx ▸ hS)]
      · simp [keepB, Finset.mem_erase, hx]
    rw [runFilter_spec, runFilter_spec, erase_sdiff_of_mem_left hS,
      union_erase_of_mem_left hS, h3]
  · have hmem : u ∈ identsOf l ∩ S := Finset.mem_inter.mpr ⟨hocc, hS⟩
    rw [runFilter_spec, runFilter_spec]
    dsimp only
    rw [identsOf_filter_ne, Finset.erase_inter, Finset.card_erase_of_mem hmem]
    have hpos := Finset.card_pos.mpr ⟨u, hmem⟩
    omega
  · have hnot : u ∉ identsOf l ∩ (R \ S) := by
      simp [Finset.mem_inter, Finset.mem_sdiff, hS]
    rw [runFilter_spec, runFilter_spec]
    dsimp only
    rw [identsOf_filter_ne, Finset.erase_inter, Finset.erase_eq_of_not_mem hnot]

/-- Witness for claim C4 at a concrete prefix and claimant sets. -/
theorem C4_witness :
    runFilter {"A"} {"A"} [⟨"A", "x", "y", 0, 0⟩]
        = runFilter {"A"} (({"A"} : Finset String).erase "A") [⟨"A", "x", "y", 0, 0⟩]
    ∧ (runFilter {"A"} {"A"} [⟨"A", "x", "y", 0, 0⟩]).removedSpelman
        = (runFilter {"A"} {"A"}
            ([(⟨"A", "x", "y", 0, 0⟩ : Person)].filter
              fun p => !(p.puid == "A"))).removedSpelman + 1
    ∧ (runFilter {"A"} {"A"} [⟨"A", "x", "y", 0, 0⟩]).removedRes
        = (runFilter {"A"} {"A"}
            ([(⟨"A", "x", "y", 0, 0⟩ : Person)].filter
              fun p => !(p.puid == "A"))).removedRes :=
  C4_subpool_precedence {"A"} {"A"} [⟨"A", "x", "y", 0, 0⟩] "A"
    (by decide) (by decide) (by decide)

/-! ## Ranker claims (C5, C6) -/

theorem enumFrom_fst_pairwise {α : Type} :
    ∀ (l : List α) (n : Nat),
      List.Pairwise (fun a b : Nat × α => a.1 < b.1) (List.enumFrom n l)
  | [], _ => by simp
  | a :: l, n => by
    rw [List.enumFrom_cons]
    constructor
    · intro y hy
      obtain ⟨i, x⟩ := y
      exact (List.mem_enumFrom hy).1
    · exact enumFrom_fst_pairwise l (n + 1)

theorem parsedRec_origin {i : Nat} {r : RawRow} {p : Person}
    (h : parsedRec (i, r) = some p) : p.origin = i := by
  unfold parsedRec at h
  dsimp only at h
  cases hp : parseDrawTime (strStrip (r.drawTime.getD "")) with
  | none =>
    rw [hp] at h
    simp at h
  | some t =>
    rw [hp] at h
    simp only [Option.map_some'] at h
    have h2 := Option.some.inj h
    rw [← h2]

theorem parsedRecords_origin_pairwise (rows : List RawRow) :
    List.Pairwise (fun a b : Person => a.origin ≠ b.origin) (parsedRecords rows) := by
  unfold parsedRecords
  rw [List.pairwise_filterMap]
  rw [show List.enum rows = List.enumFrom 0 rows from rfl]
  refine (enumFrom_fst_pairwise rows 0).imp ?_
  intro a b hab x hx y hy
  obtain ⟨i, r⟩ := a
  obtain ⟨j, s⟩ := b
  rw [Option.mem_def] at hx hy
  have h1 : x.origin = i := parsedRec_origin hx
  have h2 : y.origin = j := parsedRec_origin hy
  simp only at hab
  omega

theorem sortRanking_perm (l : List Person) : (sortRanking l).Perm l :=
  List.perm_insertionSort drawLe l

theorem sortRanking_pairwise_drawLt (l : List Person)
    (h : List.Pairwise (fun a b : Person => a.origin ≠ b.origin) l) :
    List.Pairwise drawLt (sortRanking l) := by
  have hs : List.Pairwise drawLe (sortRanking l) :=
    List.sorted_insertionSort drawLe l
  have hne : List.Pairwise (fun a b : Person => a.origin ≠ b.origin)
      (sortRanking l) :=
    ((sortRanking_perm l).pairwise_iff (fun hxy => Ne.symm hxy)).mpr h
  refine (hs.and hne).imp ?_
  intro a b hab
  obtain ⟨hle, hneq⟩ := hab
  unfold drawLe at hle
  unfold drawLt
  omega

theorem strictSorted_perm_eq : ∀ {l₁ l₂ : List Person}, l₁.Perm l₂ →
    List.Pairwise drawLt l₁ → List.Pairwise drawLt l₂ → l₁ = l₂ := by
  intro l₁
  induction l₁ with
  | nil =>
    intro l₂ hperm _ _
    have hlen := hperm.length_eq
    cases l₂ with
    | nil => rfl
    | cons b t => simp at hlen
  | cons a t ih =>
    intro l₂ hperm h1 h2
    cases l₂ with
    | nil =>
      have hlen := hperm.length_eq
      simp at hlen
    | cons b t₂ =>
      have hab : a = b := by
        by_contra hne
        have hbmem : b ∈ a :: t := hperm.mem_iff.mpr (List.mem_cons_self b t₂)
        have hamem : a ∈ b :: t₂ := hperm.mem_iff.mp (List.mem_cons_self a t)
        rcases List.mem_cons.mp hbmem with hb | hb
        · exact hne hb.symm
        · rcases List.mem_cons.mp hamem with ha | ha
          · exact hne ha
          · have hlt1 : drawLt a b := (List.pairwise_cons.mp h1).1 b hb
            have hlt2 : drawLt b a := (List.pairwise_cons.mp h2).1 a ha
            unfold drawLt at hlt1 hlt2
            omega
      subst hab
      have ht : t.Perm t₂ := hperm.cons_inv
      rw [ih ht (List.pairwise_cons.mp h1).2 (List.pairwise_cons.mp h2).2]

/-- Claim C5: every ranking the loader returns is strictly ordered by draw
timestamp with ties broken by origin index, it is a permutation of the
successfully parsed records, and every permutation of those records sorts to
the very same list, so the produced order is total and independent of input
row order presented to the sort and of sort-algorithm stability. -/
theorem C5_ranking_sorted (rows : List RawRow) (ranking : List Person)
    (h : load_draw_data rows = some ranking) :
    List.Pairwise drawLt ranking
    ∧ ranking.Perm (parsedRecords rows)
    ∧ ∀ l₂ : List Person, l₂.Perm (parsedRecords rows) →
        sortRanking l₂ = ranking := by
  have hr : ranking = sortRanking (parsedRecords rows) := by
    unfold load_draw_data at h
    by_cases hb : rows.any badRow
    · rw [if_pos hb] at h
      cases h
    · rw [if_neg hb] at h
      exact (Option.some.inj h).symm
  subst hr
  have hne := parsedRecords_origin_pairwise rows
  refine ⟨sortRanking_pairwise_drawLt _ hne, sortRanking_perm _, ?_⟩
  intro l₂ hl₂
  have hne₂ : List.Pairwise (fun a b : Person => a.origin ≠ b.origin) l₂ :=
    (hl₂.pairwise_iff (fun hxy => Ne.symm hxy)).mpr hne
  exact strictSorted_perm_eq
    ((sortRanking_perm l₂).trans (hl₂.trans (sortRanking_perm _).symm))
    (sortRanking_pairwise_drawLt _ hne₂)
    (sortRanking_pairwise_drawLt _ hne)

/-- Witness for claim C5 at a concrete pair of rows whose times arrive out of
order. -/
theorem C5_witness :
    List.Pairwise drawLt
        [⟨"B", "Y2", "X2", 1084217100, 1⟩, ⟨"A", "Y", "X", 1084217160, 0⟩]
    ∧ ([⟨"B", "Y2", "X2", 1084217100, 1⟩,
        ⟨"A", "Y", "X", 1084217160, 0⟩] : List Person).Perm
        (parsedRecords
          [⟨some "A", some "1/1/24 2:00 PM", some "X", some "Y"⟩,
           ⟨some "B", some "1/1/24 1:00 PM", some "X2", some "Y2"⟩])
    ∧ ∀ l₂ : List Person,
        l₂.Perm (parsedRecords
          [⟨some "A", some "1/1/24 2:00 PM", some "X", some "Y"⟩,
           ⟨some "B", some "1/1/24 1:00 PM", some "X2", some "Y2"⟩]) →
        sortRanking l₂
          = [⟨"B", "Y2", "X2", 1084217100, 1⟩, ⟨"A", "Y", "X", 1084217160, 0⟩] :=
  C5_ranking_sorted
    [⟨some "A", some "1/1/24 2:00 PM", some "X", some "Y"⟩,
     ⟨some "B", some "1/1/24 1:00 PM", some "X2", some "Y2"⟩]
    [⟨"B", "Y2", "X2", 1084217100, 1⟩, ⟨"A", "Y", "X", 1084217160, 0⟩]
    (by decide)

theorem enum_fst_get? {α : Type} {rows : List α} {i : Nat} {r : α}
    (h : (i, r) ∈ rows.enum) : rows.get? i = some r := by
  have h2 := List.mem_enumFrom (show (i, r) ∈ List.enumFrom 0 rows from h)
  obtain ⟨-, hlt, hr⟩ := h2
  rw [List.get?_eq_getElem?, List.getElem?_eq_getElem (by simpa using hlt)]
  simp only [Nat.sub_zero] at hr
  rw [hr]

/-- Claim C6 (corrected): when every cell of every row is present, the source
loads, a row whose stripped timestamp fails to parse contributes no record
(its origin index appears nowhere in the output) while all other rows still
load; see the counterexample for rows with absent identity or name cells,
which the claim as stated covers but the code treats differently. -/
theorem C6_bad_rows_skipped (rows : List RawRow)
    (h : ∀ r ∈ rows, badRow r = false) :
    ∃ out, load_draw_data rows = some out
      ∧ out.Perm (parsedRecords rows)
      ∧ ∀ i r, rows.get? i = some r →
          parseDrawTime (strStrip (r.drawTime.getD "")) = none →
          ∀ p ∈ out, p.origin ≠ i := by
  have hany : rows.any badRow = false :=
    List.any_eq_false.mpr (fun x hx => by simp [h x hx])
  refine ⟨sortRanking (parsedRecords rows), by simp [load_draw_data, hany], sortRanking_perm _, ?_⟩
  intro i r hget hparse p hp hpi
  have hp' : p ∈ parsedRecords rows := (sortRanking_perm _).subset hp
  unfold parsedRecords at hp'
  obtain ⟨⟨j, r'⟩, hmem, hrec⟩ := List.mem_filterMap.mp hp'
  have hj : p.origin = j := parsedRec_origin hrec
  have hij : j = i := by rw [← hj, hpi]
  subst hij
  have hget' : rows.get? j = some r' := enum_fst_get? hmem
  rw [hget] at hget'
  obtain rfl := (Option.some.inj hget').symm
  unfold parsedRec at hrec
  dsimp only at hrec
  rw [hparse] at hrec
  simp at hrec

/-- Claim C6 counterexample: a row whose identity cell is absent (None) makes
the whole load fail instead of being dropped with loading continuing, and a
row whose identity cell is present but empty is loaded rather than dropped. -/
theorem C6_counterexample :
    load_draw_data [⟨none, some "1/1/24 1:00 AM", some "X", some "Y"⟩] = none
    ∧ load_draw_data [⟨some "", some "1/1/24 1:00 AM", some "X", some "Y"⟩]
        = some [⟨"", "Y", "X", 1084216380, 0⟩] := by
  decide

/-- Witness for claim C6 at a concrete source with one unparseable
timestamp. -/
theorem C6_witness :
    ∃ out, load_draw_data [⟨some "A", some "nonsense", some "X", some "Y"⟩] = some out
      ∧ out.Perm (parsedRecords [⟨some "A", some "nonsense", some "X", some "Y"⟩])
      ∧ ∀ i r,
          ([⟨some "A", some "nonsense", some "X", some "Y"⟩] : List RawRow).get? i
            = some r →
          parseDrawTime (strStrip (r.drawTime.getD "")) = none →
          ∀ p ∈ out, p.origin ≠ i :=
  C6_bad_rows_skipped [⟨some "A", some "nonsense", some "X", some "Y"⟩]
    (by decide)

end DrawEstimator
